import Mathlib

/-!
Verification development for the LoRA Dataset Tagger core
(`data_manager.py`, `category_organizer.py`).

Strings are modelled as `List Char`.  `str.lower` is modelled on the ASCII
range (the only range the repository's tags exercise), `str.strip` strips the
ASCII whitespace characters Python strips.  File writes are modelled by an
explicit `writeOk` boolean: the functions perform exactly the state updates
the Python code performs on the corresponding success/failure path.
-/

namespace Tagger

abbrev Str := List Char

def strOf (s : String) : Str := s.data

/-- Whitespace test used by the model of Python `str.strip`. -/
def isSpaceChar (c : Char) : Bool :=
  c = ' ' || c = '\t' || c = '\n' || c = '\r' || c = '\x0b' || c = '\x0c'

/-- ASCII model of Python `str.lower` on a single character. -/
def lowerChar (c : Char) : Char :=
  if c = 'A' then 'a' else if c = 'B' then 'b' else if c = 'C' then 'c'
  else if c = 'D' then 'd' else if c = 'E' then 'e' else if c = 'F' then 'f'
  else if c = 'G' then 'g' else if c = 'H' then 'h' else if c = 'I' then 'i'
  else if c = 'J' then 'j' else if c = 'K' then 'k' else if c = 'L' then 'l'
  else if c = 'M' then 'm' else if c = 'N' then 'n' else if c = 'O' then 'o'
  else if c = 'P' then 'p' else if c = 'Q' then 'q' else if c = 'R' then 'r'
  else if c = 'S' then 's' else if c = 'T' then 't' else if c = 'U' then 'u'
  else if c = 'V' then 'v' else if c = 'W' then 'w' else if c = 'X' then 'x'
  else if c = 'Y' then 'y' else if c = 'Z' then 'z' else c

/-- Model of Python `str.lower`. -/
def lowerStr (s : Str) : Str := s.map lowerChar

/-- Model of Python `str.strip` (no argument): drop whitespace at both ends. -/
def pyStrip (s : Str) : Str :=
  ((s.dropWhile isSpaceChar).reverse.dropWhile isSpaceChar).reverse

/-- Configuration constants consumed by `DataManager` (from `main.py`). -/
structure Config where
  ENFORCE_LOWERCASE : Bool
  TAG_SEPARATOR : Str
  HISTORY_MAX_DEPTH : Nat

/-- The default configuration shipped in `main.py`. -/
def defaultConfig : Config :=
  { ENFORCE_LOWERCASE := false, TAG_SEPARATOR := strOf ", ", HISTORY_MAX_DEPTH := 10 }

/-- Mutable state of a `DataManager` instance.  `data` and `tag_frequency`
are insertion-ordered association lists, modelling Python `dict`/`Counter`. -/
structure DMState where
  data : List (String × List Str)
  image_files : List String
  tag_frequency : List (Str × Nat)
  history_stack : List (String × List Str)

/-- `Counter` lookup: `self.tag_frequency[tag]` (0 when absent). -/
def counterGet : List (Str × Nat) → Str → Nat
  | [], _ => 0
  | p :: ps, t => if p.1 = t then p.2 else counterGet ps t

/-- One increment of a `Counter`: bump the existing entry in place or append
a fresh entry with count 1. -/
def counterAdd : List (Str × Nat) → Str → List (Str × Nat)
  | [], t => [(t, 1)]
  | p :: ps, t => if p.1 = t then (p.1, p.2 + 1) :: ps else p :: counterAdd ps t

/-- `Counter.update(tags)`. -/
def counterUpdate (c : List (Str × Nat)) (ts : List Str) : List (Str × Nat) :=
  ts.foldl counterAdd c

/-- `recalculate_frequency`: clear the counter and update it with every
image's tag list, in `data` order. -/
def recalcFrequency (data : List (String × List Str)) : List (Str × Nat) :=
  data.foldl (fun c p => counterUpdate c p.2) []

/-- `self.data.get(filename, [])`. -/
def dataGet : List (String × List Str) → String → List Str
  | [], _ => []
  | p :: ps, k => if p.1 = k then p.2 else dataGet ps k

/-- `self.data[filename] = v`: dict assignment, keeping the key's position. -/
def setAssoc : List (String × List Str) → String → List Str → List (String × List Str)
  | [], k, v => [(k, v)]
  | p :: ps, k, v => if p.1 = k then (k, v) :: ps else p :: setAssoc ps k v

/-- `_push_history`: append the entry, then `pop(0)` once if the stack
exceeds `HISTORY_MAX_DEPTH`. -/
def push_history (cfg : Config) (h : List (String × List Str))
    (e : String × List Str) : List (String × List Str) :=
  let h2 := h ++ [e]
  if cfg.HISTORY_MAX_DEPTH < h2.length then h2.tail else h2

/-- One step of the cleaning loop in `save_tags`: strip the tag, keep it if it
is non-empty and not in `seen` (the membership test runs on the stripped tag,
BEFORE the optional lowercase fold), then fold and record the folded form. -/
def cleanStep (cfg : Config) (acc : List Str × List Str) (tag : Str) :
    List Str × List Str :=
  let t := pyStrip tag
  if t ≠ [] ∧ t ∉ acc.2 then
    let t2 := if cfg.ENFORCE_LOWERCASE then lowerStr t else t
    (acc.1 ++ [t2], acc.2 ++ [t2])
  else acc

/-- The `cleaned_tags` list computed by `save_tags`. -/
def cleanTags (cfg : Config) (new_tags_list : List Str) : List Str :=
  (new_tags_list.foldl (cleanStep cfg) ([], [])).1

/-- `save_tags`: push the image's current list onto the history, clean the
input, commit it to `data`, and - only when the file write succeeds -
rebuild the frequency counter and report success. -/
def save_tags (cfg : Config) (s : DMState) (filename : String)
    (new_tags_list : List Str) (writeOk : Bool) : Bool × DMState :=
  let entry := (filename, dataGet s.data filename)
  let s1 := { s with history_stack := push_history cfg s.history_stack entry }
  let cleaned := cleanTags cfg new_tags_list
  let s2 := { s1 with data := setAssoc s1.data filename cleaned }
  if writeOk then (true, { s2 with tag_frequency := recalcFrequency s2.data })
  else (false, s2)

/-- `add_tag_globally`.  In the source, `tags = self.data[filename]` aliases
the stored list, so `tags.append(tag)` mutates `self.data[filename]` before
`save_tags` reads it back; the model therefore commits the appended list to
`data` before calling `save_tags`.  `load_data` guarantees every image file
has a `data` entry, so the `dict` indexing is modelled by `dataGet`. -/
def add_tag_globally (cfg : Config) (wOk : String → Bool) (s : DMState)
    (tag : Str) : Nat × DMState :=
  let t := pyStrip tag
  if t = [] then (0, s)
  else
    s.image_files.foldl (fun acc filename =>
      let tags := dataGet acc.2.data filename
      if t ∈ tags then acc
      else
        let tags2 := tags ++ [t]
        let st2 := { acc.2 with data := setAssoc acc.2.data filename tags2 }
        (acc.1 + 1, (save_tags cfg st2 filename tags2 (wOk filename)).2)) (0, s)

/-- `undo`: pop the most recent history entry, restore that image's list in
memory, and attempt the file write; only on success rebuild the frequency
counter and return the filename. -/
def undo (s : DMState) (writeOk : Bool) : Option String × DMState :=
  match s.history_stack.getLast? with
  | none => (none, s)
  | some e =>
    let s1 := { s with history_stack := s.history_stack.dropLast,
                       data := setAssoc s.data e.1 e.2 }
    if writeOk then (some e.1, { s1 with tag_frequency := recalcFrequency s1.data })
    else (none, s1)

/-- Model of Python `sep.join(tags)`. -/
def joinSep (sep : Str) : List Str → Str
  | [] => []
  | [t] => t
  | t :: t2 :: ts => t ++ sep ++ joinSep sep (t2 :: ts)

/-- The sidecar-file content written by `save_tags`. -/
def serializeTags (cfg : Config) (tags : List Str) : Str :=
  joinSep cfg.TAG_SEPARATOR tags

/-- Model of Python `str.split(sep)` for a one-character separator:
n separators yield n+1 (possibly empty) pieces. -/
def splitOnChar (sep : Char) : Str → List Str
  | [] => [[]]
  | c :: cs =>
    if c = sep then [] :: splitOnChar sep cs
    else
      match splitOnChar sep cs with
      | [] => [[c]]
      | p :: ps => (c :: p) :: ps

/-- The parsing performed by `_load_tags_from_file` on the file content:
strip the content, return `[]` if empty, split on the HARD-CODED comma,
strip each piece and drop empties. -/
def parseTags (content : Str) : List Str :=
  let c := pyStrip content
  if c = [] then []
  else ((splitOnChar ',' c).map pyStrip).filter (fun t => t ≠ [])

/-- Inner loop of `_levenshtein_distance`: walk the characters of `s2`
together with the previous row; `last` is the element most recently appended
to the current row (`current_row[j]`).  The rows always have one more entry
than the remaining characters, so the final patterns are unreachable. -/
def levInner (c1 : Char) : List Char → List Nat → Nat → List Nat
  | [], _, _ => []
  | _ :: _, [], _ => []
  | _ :: _, [_], _ => []
  | c2 :: cs, p0 :: p1 :: ps, last =>
    let v := min (min (p1 + 1) (last + 1)) (p0 + (if c1 = c2 then 0 else 1))
    v :: levInner c1 cs (p1 :: ps) v

/-- Outer loop of `_levenshtein_distance`: one row per character of `s1`;
`i` is the 0-based index of the current character, so each new row starts
with `i + 1`. -/
def levOuter (s2 : List Char) : List Char → List Nat → Nat → List Nat
  | [], prev, _ => prev
  | c1 :: rest, prev, i => levOuter s2 rest ((i + 1) :: levInner c1 s2 prev (i + 1)) (i + 1)

/-- `_levenshtein_distance` after the length swap: empty `s2` short-circuits
to `len(s1)`, otherwise run the row DP seeded with `range(len(s2)+1)` and
return the last entry of the final row. -/
def levAux (s1 s2 : List Char) : Nat :=
  if s2.length = 0 then s1.length
  else (levOuter s2 s1 (List.range (s2.length + 1)) 0).getLastD 0

/-- `_levenshtein_distance`: recurse once with swapped arguments when
`len(s1) < len(s2)`; the swapped call takes the other branch at once. -/
def levenshtein_distance (s1 s2 : List Char) : Nat :=
  if s1.length < s2.length then levAux s2 s1 else levAux s1 s2

/-- Textbook Levenshtein distance with unit costs, used as the reference
point of the DP-correctness proof. -/
def lev : List Char → List Char → Nat
  | [], ys => ys.length
  | _ :: xs, [] => xs.length + 1
  | x :: xs, y :: ys =>
    min (min (lev xs (y :: ys) + 1) (lev (x :: xs) ys + 1))
      (lev xs ys + (if x = y then 0 else 1))
termination_by xs ys => xs.length + ys.length

/-- Reference row of the DP over `cs` (a suffix of `s2`): the distances
between `a` and the successive extensions of the accumulator `b`. -/
def rowFrom (a b : List Char) : List Char → List Nat
  | [] => [lev a b]
  | c :: cs => lev a b :: rowFrom a (c :: b) cs

/-- Fuel-indexed search behind `pyFind`; tries `start`, `start+1`, ... -/
def findAux (tag part : List Char) : Nat → Nat → Option Nat
  | 0, _ => none
  | fuel + 1, start =>
    if part.isPrefixOf (tag.drop start) then some start
    else findAux tag part fuel (start + 1)

/-- Model of Python `tag.find(part, start)`: the least position `p ≥ start`
at which `part` occurs entirely inside `tag`, if any. -/
def pyFind (tag part : List Char) (start : Nat) : Option Nat :=
  findAux tag part (tag.length + 1 - start) start

/-- The segment loop of `_match_pattern`: `i` is the `enumerate` index,
`cur` the scan cursor; empty segments are skipped via `continue`; the
position-0 anchor applies to the segment at index 0 when the pattern has no
leading `*`; after the loop, a pattern with no trailing `*` requires the
cursor to sit exactly at the end of the tag. -/
def matchLoop (tl : Str) (sw ew : Bool) : List Str → Nat → Nat → Bool
  | [], _, cur => if ew = false ∧ cur ≠ tl.length then false else true
  | part :: rest, i, cur =>
    if part = [] then matchLoop tl sw ew rest (i + 1) cur
    else
      match pyFind tl part cur with
      | none => false
      | some pos =>
        if i = 0 ∧ sw = false ∧ pos ≠ 0 then false
        else matchLoop tl sw ew rest (i + 1) (pos + part.length)

/-- The `*`-branch of `_match_pattern` on the split pieces: record and drop
one leading and one trailing empty piece (the leading/trailing-`*` flags),
succeed immediately when nothing remains, otherwise run the segment loop. -/
def starMatch (tl : Str) (parts0 : List Str) : Bool :=
  let sw := decide (parts0.head? = some [])
  let parts1 := if sw then parts0.tail else parts0
  let ew := decide (parts1.getLast? = some [])
  let parts2 := if ew then parts1.dropLast else parts1
  if parts2 = [] then true
  else matchLoop tl sw ew parts2 0 0

def matchPattern (tag pattern : Str) : Bool :=
  let tl := lowerStr tag
  let pl := lowerStr pattern
  if '*' ∈ pl then starMatch tl (splitOnChar '*' pl)
  else decide (tl = pl)

/-- Modelled from the spec (section 4.6 wildcard semantics): chain the
literal segments through the tag, each found leftmost at or after the
cursor, non-overlapping; returns the final cursor. -/
def segScan (tl : Str) : List Str → Nat → Option Nat
  | [], cur => some cur
  | seg :: rest, cur =>
    match pyFind tl seg cur with
    | none => none
    | some pos => segScan tl rest (pos + seg.length)

/-- Modelled from the spec (section 4.6), the `*`-case semantics: `leading`
and `trailing` say whether the pattern starts/ends with `*`; a pattern of
only `*` (no literal segments) matches everything; the literal segments
must occur in order, non-overlapping, each found leftmost at or after the
cursor; without a leading `*` the first segment must start at position 0;
without a trailing `*` the last segment must end exactly at the end. -/
def scanStar (tl : Str) (leading trailing : Bool) (segs : List Str) : Bool :=
  match segs with
  | [] => true
  | s0 :: rest =>
    match pyFind tl s0 0 with
    | none => false
    | some p0 =>
      if leading = false ∧ p0 ≠ 0 then false
      else
        match segScan tl rest (p0 + s0.length) with
        | none => false
        | some cur => if trailing = false ∧ cur ≠ tl.length then false else true

/-- Modelled from the spec (section 4.6): a pattern with no `*` requires
case-insensitive equality; otherwise the segments obtained by splitting on
`*` are matched per `scanStar`, with the leading/trailing flags read off
the (lower-cased) pattern itself. -/
def matchSpec (tag pattern : Str) : Bool :=
  let tl := lowerStr tag
  let pl := lowerStr pattern
  if '*' ∈ pl then
    scanStar tl (decide (pl.head? = some '*')) (decide (pl.getLast? = some '*'))
      ((splitOnChar '*' pl).filter (fun p => p ≠ []))
  else decide (tl = pl)

/-- The tail of the segment loop: scan the remaining segments from the
cursor and apply the end-anchor check. -/
def scanOk (tl : Str) (ew : Bool) (segs : List Str) (cur : Nat) : Bool :=
  match segScan tl segs cur with
  | none => false
  | some c => if ew = false ∧ c ≠ tl.length then false else true

/-- A category record of the organizer: `name`, ordered keyword patterns,
ordered member tags. -/
structure Category where
  name : String
  auto_keywords : List Str
  tags : List Str
deriving DecidableEq

/-- Index of the first keyword matching `tag`.  Both keyword loops of
`_auto_categorize` compute this value: the first (no `break`) takes the
minimum over all matching indices, the second breaks at the first match;
indices increase, so both yield the first matching index (`inf` = `none`). -/
def keywordIndex (kws : List Str) (tag : Str) : Option Nat :=
  match kws with
  | [] => none
  | k :: rest =>
    if matchPattern tag k then some 0 else (keywordIndex rest tag).map (· + 1)

/-- `matched_keyword_index < existing_keyword_index` with `none` as `inf`. -/
def ltInf (n : Nat) : Option Nat → Bool
  | none => true
  | some m => decide (n < m)

/-- The `insert_pos` scan of `_auto_categorize`: first position whose
existing tag matched a strictly later keyword, defaulting to the length. -/
def findInsertPos (kws : List Str) (newIdx : Nat) : List Str → Nat
  | [] => 0
  | u :: us =>
    if ltInf newIdx (keywordIndex kws u) then 0
    else findInsertPos kws newIdx us + 1

/-- Python `list.insert(n, a)` for `n ≤ len`. -/
def insertAt (n : Nat) (a : α) (l : List α) : List α :=
  l.take n ++ a :: l.drop n

/-- Try the categories in order for one tag: on the first category with a
matching keyword, insert the tag (unless already present) at the scanned
position and stop; `none` when no category matches. -/
def categorizeTag : List Category → Str → Option (List Category)
  | [], _ => none
  | cat :: rest, tag =>
    match keywordIndex cat.auto_keywords tag with
    | some idx =>
      let newTags :=
        if tag ∈ cat.tags then cat.tags
        else insertAt (findInsertPos cat.auto_keywords idx cat.tags) tag cat.tags
      some ({ cat with tags := newTags } :: rest)
    | none =>
      match categorizeTag rest tag with
      | none => none
      | some rest2 => some (cat :: rest2)

/-- `del self.uncategorized_tags[tag]`. -/
def removeKey (d : List (Str × Nat)) (k : Str) : List (Str × Nat) :=
  d.filter (fun p => p.1 ≠ k)

/-- One iteration of the `_auto_categorize` loop: when some category
matched, the tag has been placed, is deleted from the uncategorized map and
counted; otherwise nothing changes. -/
def autoStep (acc : Nat × List Category × List (Str × Nat)) (tag : Str) :
    Nat × List Category × List (Str × Nat) :=
  match categorizeTag acc.2.1 tag with
  | some cats2 => (acc.1 + 1, cats2, removeKey acc.2.2 tag)
  | none => acc

def auto_categorize (cats : List Category) (uncat : List (Str × Nat)) :
    Nat × List Category × List (Str × Nat) :=
  (uncat.map (fun p => p.1)).foldl autoStep (0, cats, uncat)

/-- Some category's keyword list matches the tag. -/
def tagMatches (cats : List Category) (t : Str) : Bool :=
  cats.any (fun c => (keywordIndex c.auto_keywords t).isSome)

/-- Keyword rank with `none` mapped to `kws.length`, an upper bound for
every genuine index. -/
def kwRank (kws : List Str) (t : Str) : Nat :=
  (keywordIndex kws t).getD kws.length

/-- Every category's tag list is ordered by matched-keyword priority. -/
abbrev SortedCats (cats : List Category) : Prop :=
  ∀ c ∈ cats, c.tags.Pairwise
    (fun a b => kwRank c.auto_keywords a ≤ kwRank c.auto_keywords b)

/-- Stable insertion for the model of Python's stable `sorted(...,
key=count, reverse=True)`: an element moves past exactly the entries with
strictly larger count. -/
def insertDesc (p : Str × Nat) : List (Str × Nat) → List (Str × Nat)
  | [] => [p]
  | q :: qs => if q.2 ≤ p.2 then p :: q :: qs else q :: insertDesc p qs

/-- `Counter.most_common()`: stable sort of the counter items by count
descending (equal counts keep their insertion order). -/
def most_common (l : List (Str × Nat)) : List (Str × Nat) :=
  l.foldr insertDesc []

/-- `get_all_tags_by_frequency`. -/
def get_all_tags_by_frequency (s : DMState) : List (Str × Nat) :=
  most_common s.tag_frequency

/-- Case-sensitive lexicographic strict order on strings. -/
def lexLt : Str → Str → Bool
  | [], [] => false
  | [], _ :: _ => true
  | _ :: _, [] => false
  | a :: as, b :: bs => if a < b then true else if b < a then false else lexLt as bs

/-- Modelled from the spec (section 4.2): "sorted by count descending, ties
broken by ascending lexicographic tag order (case-sensitive)". -/
def specFreqLe (p q : Str × Nat) : Bool :=
  q.2 < p.2 || (p.2 = q.2 && (lexLt p.1 q.1 || p.1 = q.1))

/-- Generic insertion sort by a boolean "goes before or equal" test. -/
def insertBy (le : α → α → Bool) (x : α) : List α → List α
  | [] => [x]
  | y :: ys => if le x y then x :: y :: ys else y :: insertBy le x ys

/-- Modelled from the spec (section 4.2): the frequency listing the spec
describes - count descending, ties in ascending lexicographic tag order. -/
def specSortFreq (l : List (Str × Nat)) : List (Str × Nat) :=
  l.foldr (insertBy specFreqLe) []

/-- A string whose first and last characters (when present) are
non-whitespace; such strings are fixed points of `pyStrip`. -/
def TrimmedStr (s : Str) : Prop :=
  (∀ c, s.head? = some c → isSpaceChar c = false) ∧
  (∀ c, s.getLast? = some c → isSpaceChar c = false)

/-- The configuration with lowercase folding enabled. -/
def cfgLower : Config :=
  { ENFORCE_LOWERCASE := true, TAG_SEPARATOR := strOf ", ", HISTORY_MAX_DEPTH := 10 }

/-- A configuration with a non-comma separator. -/
def cfgPipe : Config :=
  { ENFORCE_LOWERCASE := false, TAG_SEPARATOR := strOf "|", HISTORY_MAX_DEPTH := 10 }

/-- A loaded state with consistent frequency index. -/
def mkState (d : List (String × List Str)) (files : List String)
    (h : List (String × List Str)) : DMState :=
  { data := d, image_files := files, tag_frequency := recalcFrequency d,
    history_stack := h }

def sC1 : DMState := mkState [("img", [])] ["img"] []

def sC2 : DMState := mkState [("img", [strOf "a"])] ["img"] []

def rC2 : Nat × DMState := add_tag_globally defaultConfig (fun _ => true) sC2 (strOf "b")

def s8Freq : DMState := mkState [("img", [strOf "b", strOf "a"])] ["img"] []

def s9Undo : DMState := mkState [("img", [strOf "b"])] ["img"] [("img", [strOf "a"])]

def hairCats : List Category :=
  [{ name := "Hair", auto_keywords := [strOf "*hair*"], tags := [] }]

def hairUncat : List (Str × Nat) := [(strOf "red_hair", 1), (strOf "eyes", 1)]

def hairEyesCats : List Category :=
  [{ name := "Hair", auto_keywords := [strOf "*hair*", strOf "*eyes*"], tags := [] }]

def hairEyesUncat : List (Str × Nat) :=
  [(strOf "blue_eyes", 1), (strOf "red_hair", 1)]

def tagsC3 : List Str := [strOf " Red_Hair ", strOf "eyes", strOf "red_hair"]

theorem dataGet_setAssoc_self (d : List (String × List Str)) (k : String)
    (v : List Str) : dataGet (setAssoc d k v) k = v := by
  induction d with
  | nil => simp [setAssoc, dataGet]
  | cons p ps ih =>
    by_cases h : p.1 = k
    · simp [setAssoc, dataGet, h]
    · simp [setAssoc, dataGet, h, ih]

theorem counterGet_counterAdd (c : List (Str × Nat)) (x t : Str) :
    counterGet (counterAdd c x) t = counterGet c t + (if x = t then 1 else 0) := by
  induction c with
  | nil =>
    by_cases h : x = t <;> simp [counterAdd, counterGet, h]
  | cons p ps ih =>
    obtain ⟨p1, p2⟩ := p
    by_cases h : p1 = x
    · subst h
      by_cases h2 : p1 = t
      · subst h2
        simp [counterAdd, counterGet]
      · simp [counterAdd, counterGet, h2]
    · by_cases h2 : p1 = t
      · subst h2
        have hxt : ¬ x = p1 := fun e => h (by rw [e])
        simp [counterAdd, counterGet, h, hxt]
      · simp [counterAdd, counterGet, h, h2, ih]

theorem counterGet_counterUpdate (ts : List Str) (c : List (Str × Nat)) (t : Str) :
    counterGet (counterUpdate c ts) t = counterGet c t + ts.count t := by
  induction ts generalizing c with
  | nil => simp [counterUpdate]
  | cons x ts ih =>
    have : counterUpdate c (x :: ts) = counterUpdate (counterAdd c x) ts := rfl
    rw [this, ih, counterGet_counterAdd, List.count_cons]
    by_cases h : x = t
    · simp [h]
      omega
    · simp [h]

theorem counterGet_recalc_aux (d : List (String × List Str))
    (c : List (Str × Nat)) (t : Str) :
    counterGet (d.foldl (fun c p => counterUpdate c p.2) c) t =
      counterGet c t + (d.map (fun p => p.2.count t)).sum := by
  induction d generalizing c with
  | nil => simp
  | cons p d ih => simp [ih, counterGet_counterUpdate]; omega

/-- The frequency counter rebuilt by `recalculate_frequency` assigns every
tag its total number of occurrences across all images. -/
theorem counterGet_recalc (d : List (String × List Str)) (t : Str) :
    counterGet (recalcFrequency d) t = (d.map (fun p => p.2.count t)).sum := by
  have := counterGet_recalc_aux d [] t
  simpa [recalcFrequency, counterGet] using this

theorem push_history_eq_drop (cfg : Config) (h : List (String × List Str))
    (e : String × List Str) (hle : h.length ≤ cfg.HISTORY_MAX_DEPTH) :
    push_history cfg h e =
      (h ++ [e]).drop (h.length + 1 - cfg.HISTORY_MAX_DEPTH) := by
  simp only [push_history]
  by_cases hc : cfg.HISTORY_MAX_DEPTH < (h ++ [e]).length
  · rw [if_pos hc, ← List.drop_one]
    congr 1
    simp only [List.length_append, List.length_cons, List.length_nil] at hc
    omega
  · rw [if_neg hc]
    simp only [List.length_append, List.length_cons, List.length_nil] at hc
    have : h.length + 1 - cfg.HISTORY_MAX_DEPTH = 0 := by omega
    rw [this, List.drop_zero]

theorem push_history_length (cfg : Config) (h : List (String × List Str))
    (e : String × List Str) (hle : h.length ≤ cfg.HISTORY_MAX_DEPTH) :
    (push_history cfg h e).length ≤ cfg.HISTORY_MAX_DEPTH := by
  rw [push_history_eq_drop cfg h e hle]
  simp only [List.length_drop, List.length_append, List.length_cons,
    List.length_nil]
  omega

theorem push_history_foldl_aux (cfg : Config) (es : List (String × List Str)) :
    ∀ acc : List (String × List Str), acc.length ≤ cfg.HISTORY_MAX_DEPTH →
      es.foldl (push_history cfg) acc =
        (acc ++ es).drop (acc.length + es.length - cfg.HISTORY_MAX_DEPTH) := by
  induction es with
  | nil =>
    intro acc hle
    simp [Nat.sub_eq_zero_of_le hle]
  | cons e es ih =>
    intro acc hle
    have hstep : List.foldl (push_history cfg) acc (e :: es) =
        List.foldl (push_history cfg) (push_history cfg acc e) es := rfl
    rw [hstep, ih _ (push_history_length cfg acc e hle)]
    rw [push_history_eq_drop cfg acc e hle]
    have hk : acc.length + 1 - cfg.HISTORY_MAX_DEPTH ≤ (acc ++ [e]).length := by
      simp only [List.length_append, List.length_cons, List.length_nil]
      omega
    rw [← List.drop_append_of_le_length hk, List.drop_drop]
    have hassoc : (acc ++ [e]) ++ es = acc ++ e :: es := by simp
    rw [hassoc]
    congr 1
    simp only [List.length_drop, List.length_append, List.length_cons,
      List.length_nil]
    omega

theorem insertDesc_mem (x a : Str × Nat) (l : List (Str × Nat))
    (h : a ∈ insertDesc x l) : a = x ∨ a ∈ l := by
  induction l with
  | nil => simpa [insertDesc] using h
  | cons q qs ih =>
    by_cases hc : q.2 ≤ x.2
    · simp only [insertDesc, if_pos hc] at h
      exact List.mem_cons.mp h
    · simp only [insertDesc, if_neg hc] at h
      rcases List.mem_cons.mp h with h2 | h2
      · exact Or.inr (h2 ▸ List.mem_cons_self q qs)
      · rcases ih h2 with h3 | h3
        · exact Or.inl h3
        · exact Or.inr (List.mem_cons_of_mem q h3)

theorem insertDesc_pairwise (x : Str × Nat) (l : List (Str × Nat))
    (h : l.Pairwise (fun p q => q.2 ≤ p.2)) :
    (insertDesc x l).Pairwise (fun p q => q.2 ≤ p.2) := by
  induction l with
  | nil => simp [insertDesc]
  | cons q qs ih =>
    rcases List.pairwise_cons.mp h with ⟨hq, hqs⟩
    by_cases hc : q.2 ≤ x.2
    · simp only [insertDesc]
      rw [if_pos hc]
      refine List.pairwise_cons.mpr ⟨?_, h⟩
      intro a ha
      rcases List.mem_cons.mp ha with ha | ha
      · subst ha; omega
      · have := hq a ha; omega
    · simp only [insertDesc]
      rw [if_neg hc]
      refine List.pairwise_cons.mpr ⟨?_, ih hqs⟩
      intro a ha
      rcases insertDesc_mem x a qs ha with h2 | h2
      · subst h2; omega
      · exact hq a h2

theorem insertDesc_filter (x : Str × Nat) (c : Nat) (l : List (Str × Nat)) :
    (insertDesc x l).filter (fun p => decide (p.2 = c)) =
      if x.2 = c then x :: l.filter (fun p => decide (p.2 = c))
      else l.filter (fun p => decide (p.2 = c)) := by
  induction l with
  | nil =>
    by_cases h : x.2 = c <;> simp [insertDesc, h]
  | cons q qs ih =>
    by_cases hc : q.2 ≤ x.2
    · simp only [insertDesc]
      rw [if_pos hc]
      by_cases h : x.2 = c <;> simp [h, List.filter_cons]
    · simp only [insertDesc]
      rw [if_neg hc]
      by_cases h : x.2 = c
      · have hq : ¬ q.2 = c := by omega
        simp [List.filter_cons, h, hq, ih]
      · simp [List.filter_cons, ih, h]

theorem most_common_pairwise (l : List (Str × Nat)) :
    (most_common l).Pairwise (fun p q => q.2 ≤ p.2) := by
  induction l with
  | nil => simp [most_common]
  | cons x l ih => exact insertDesc_pairwise x _ ih

theorem most_common_filter (l : List (Str × Nat)) (c : Nat) :
    (most_common l).filter (fun p => decide (p.2 = c)) =
      l.filter (fun p => decide (p.2 = c)) := by
  induction l with
  | nil => rfl
  | cons x l ih =>
    have : most_common (x :: l) = insertDesc x (most_common l) := rfl
    rw [this, insertDesc_filter]
    by_cases h : x.2 = c <;> simp [List.filter_cons, h, ih]

/-- C1: `save_tags` is meant to commit a deduplicated list for every
configuration, but with the lowercase flag set the `seen` test runs on the
unfolded tag while `seen` stores folded tags, so the input `["A", "A"]` is
committed as the duplicated list `["a", "a"]`. -/
theorem save_tags_folding_breaks_dedup :
    cleanTags cfgLower [strOf "A", strOf "A"] = [strOf "a", strOf "a"] ∧
    ¬ (cleanTags cfgLower [strOf "A", strOf "A"]).Nodup ∧
    (save_tags cfgLower sC1 "img" [strOf "A", strOf "A"] true).2.data =
      [("img", [strOf "a", strOf "a"])] := by
  refine ⟨by decide, by decide, by decide⟩

/-- C2: `add_tag_globally` appends to the list aliased by
`self.data[filename]`, so the history entry pushed by the per-image save
holds the POST-mutation list `["a", "b"]` rather than the pre-mutation
`["a"]`, and a single undo leaves the image at `["a", "b"]`. -/
theorem add_globally_history_aliasing :
    rC2.1 = 1 ∧
    rC2.2.history_stack = [("img", [strOf "a", strOf "b"])] ∧
    dataGet (undo rC2.2 true).2.data "img" = [strOf "a", strOf "b"] ∧
    dataGet (undo rC2.2 true).2.data "img" ≠ [strOf "a"] := by
  refine ⟨by decide, by decide, by decide, by decide⟩

/-- C4: the history length never exceeds the configured maximum depth
(preserved by every push, hence by every save, and by undo), saves push
through `push_history`, and pushing a sequence of entries onto an empty
history retains exactly the most recent `HISTORY_MAX_DEPTH` of them in FIFO
order, so after N+1 saves the first entry is gone. -/
theorem history_cap_fifo (cfg : Config) (h : List (String × List Str))
    (e : String × List Str) :
    (h.length ≤ cfg.HISTORY_MAX_DEPTH →
      (push_history cfg h e).length ≤ cfg.HISTORY_MAX_DEPTH) ∧
    (∀ s : DMState, ∀ fn ts w,
      (save_tags cfg s fn ts w).2.history_stack =
        push_history cfg s.history_stack (fn, dataGet s.data fn)) ∧
    (∀ es : List (String × List Str),
      es.foldl (push_history cfg) [] =
        es.drop (es.length - cfg.HISTORY_MAX_DEPTH)) ∧
    (∀ s : DMState, ∀ w, (undo s w).2.history_stack.length ≤ s.history_stack.length) := by
  refine ⟨push_history_length cfg h e, ?_, ?_, ?_⟩
  · intro s fn ts w
    unfold save_tags
    by_cases hw : w <;> simp [hw]
  · intro es
    have := push_history_foldl_aux cfg es [] (by simp)
    simpa using this
  · intro s w
    unfold undo
    match hm : s.history_stack.getLast? with
    | none => simp
    | some e =>
      by_cases hw : w
      · simp [hm, hw, List.length_dropLast]
      · simp [hm, hw, List.length_dropLast]

theorem history_cap_fifo_witness :
    ([] : List (String × List Str)).length ≤ defaultConfig.HISTORY_MAX_DEPTH ∧
    (push_history defaultConfig [] ("img", [strOf "a"])).length ≤
      defaultConfig.HISTORY_MAX_DEPTH :=
  ⟨by decide, (history_cap_fifo defaultConfig [] ("img", [strOf "a"])).1 (by decide)⟩

/-- C8 counterexample: with two tags of equal count inserted in the order
`b`, `a`, `get_all_tags_by_frequency` (i.e. `Counter.most_common`) returns
them in insertion order `[b, a]`, not in the ascending lexicographic order
`[a, b]` claimed by the spec. -/
theorem freq_tie_order_cex :
    get_all_tags_by_frequency s8Freq ≠ specSortFreq s8Freq.tag_frequency ∧
    get_all_tags_by_frequency s8Freq = [(strOf "b", 1), (strOf "a", 1)] ∧
    specSortFreq s8Freq.tag_frequency = [(strOf "a", 1), (strOf "b", 1)] := by
  refine ⟨by decide, by decide, by decide⟩

/-- C8 (amended): `get_all_tags_by_frequency` returns the frequency pairs
sorted by count descending, with ties at equal count kept in the counter's
insertion order (the output restricted to any fixed count equals the
counter's entries with that count, in order). -/
theorem all_by_frequency_sorted_stable (s : DMState) :
    (get_all_tags_by_frequency s).Pairwise (fun p q => q.2 ≤ p.2) ∧
    ∀ c : Nat, (get_all_tags_by_frequency s).filter (fun p => decide (p.2 = c)) =
      s.tag_frequency.filter (fun p => decide (p.2 = c)) := by
  exact ⟨most_common_pairwise s.tag_frequency,
    fun c => most_common_filter s.tag_frequency c⟩

/-- C9: after a durably saved mutation (a successful `save_tags` or a
successful `undo`), the frequency index of every tag equals the number of
occurrences of that tag across all images' committed lists. -/
theorem frequency_true_counts (cfg : Config) (s : DMState) (fn : String)
    (ts : List Str) (t : Str) :
    (counterGet (save_tags cfg s fn ts true).2.tag_frequency t =
      (((save_tags cfg s fn ts true).2.data).map (fun p => p.2.count t)).sum) ∧
    ((undo s true).1.isSome →
      counterGet (undo s true).2.tag_frequency t =
        (((undo s true).2.data).map (fun p => p.2.count t)).sum) := by
  constructor
  · unfold save_tags
    simp [counterGet_recalc]
  · intro hs
    unfold undo at hs ⊢
    match hm : s.history_stack.getLast? with
    | none => simp [hm] at hs
    | some e => simp [hm, counterGet_recalc]

theorem frequency_true_counts_witness :
    (undo s9Undo true).1.isSome ∧
    counterGet (undo s9Undo true).2.tag_frequency (strOf "a") =
      (((undo s9Undo true).2.data).map (fun p => p.2.count (strOf "a"))).sum :=
  ⟨by decide,
    (frequency_true_counts defaultConfig s9Undo "img" [] (strOf "a")).2 (by decide)⟩

/-- C10: when the history is non-empty but the file write inside `undo`
fails, `undo` still pops the entry and still replaces the image's in-memory
list with the popped one, yet returns `none` (as for an empty history) and
leaves the frequency index untouched - the operation is not atomic on
error. -/
theorem undo_write_failure (s : DMState) (fn : String) (old : List Str)
    (h : s.history_stack.getLast? = some (fn, old)) :
    (undo s false).1 = none ∧
    (undo s false).2.history_stack = s.history_stack.dropLast ∧
    dataGet (undo s false).2.data fn = old ∧
    (undo s false).2.tag_frequency = s.tag_frequency := by
  unfold undo
  rw [h]
  simp [dataGet_setAssoc_self]

theorem undo_write_failure_witness :
    s9Undo.history_stack.getLast? = some ("img", [strOf "a"]) ∧
    ((undo s9Undo false).1 = none ∧
     (undo s9Undo false).2.history_stack = s9Undo.history_stack.dropLast ∧
     dataGet (undo s9Undo false).2.data "img" = [strOf "a"] ∧
     (undo s9Undo false).2.tag_frequency = s9Undo.tag_frequency) :=
  ⟨by decide, undo_write_failure s9Undo "img" [strOf "a"] (by decide)⟩

theorem lowerChar_space (c : Char) :
    isSpaceChar (lowerChar c) = isSpaceChar c := by
  by_cases h0 : c = 'A'
  · subst h0; decide
  by_cases h1 : c = 'B'
  · subst h1; decide
  by_cases h2 : c = 'C'
  · subst h2; decide
  by_cases h3 : c = 'D'
  · subst h3; decide
  by_cases h4 : c = 'E'
  · subst h4; decide
  by_cases h5 : c = 'F'
  · subst h5; decide
  by_cases h6 : c = 'G'
  · subst h6; decide
  by_cases h7 : c = 'H'
  · subst h7; decide
  by_cases h8 : c = 'I'
  · subst h8; decide
  by_cases h9 : c = 'J'
  · subst h9; decide
  by_cases h10 : c = 'K'
  · subst h10; decide
  by_cases h11 : c = 'L'
  · subst h11; decide
  by_cases h12 : c = 'M'
  · subst h12; decide
  by_cases h13 : c = 'N'
  · subst h13; decide
  by_cases h14 : c = 'O'
  · subst h14; decide
  by_cases h15 : c = 'P'
  · subst h15; decide
  by_cases h16 : c = 'Q'
  · subst h16; decide
  by_cases h17 : c = 'R'
  · subst h17; decide
  by_cases h18 : c = 'S'
  · subst h18; decide
  by_cases h19 : c = 'T'
  · subst h19; decide
  by_cases h20 : c = 'U'
  · subst h20; decide
  by_cases h21 : c = 'V'
  · subst h21; decide
  by_cases h22 : c = 'W'
  · subst h22; decide
  by_cases h23 : c = 'X'
  · subst h23; decide
  by_cases h24 : c = 'Y'
  · subst h24; decide
  by_cases h25 : c = 'Z'
  · subst h25; decide
  simp only [lowerChar, if_neg h0, if_neg h1, if_neg h2, if_neg h3, if_neg h4, if_neg h5, if_neg h6, if_neg h7, if_neg h8, if_neg h9, if_neg h10, if_neg h11, if_neg h12, if_neg h13, if_neg h14, if_neg h15, if_neg h16, if_neg h17, if_neg h18, if_neg h19, if_neg h20, if_neg h21, if_neg h22, if_neg h23, if_neg h24, if_neg h25]

theorem lowerChar_comma (c : Char) (h : lowerChar c = ',') : c = ',' := by
  by_cases h0 : c = 'A'
  · subst h0; exact absurd h (by decide)
  by_cases h1 : c = 'B'
  · subst h1; exact absurd h (by decide)
  by_cases h2 : c = 'C'
  · subst h2; exact absurd h (by decide)
  by_cases h3 : c = 'D'
  · subst h3; exact absurd h (by decide)
  by_cases h4 : c = 'E'
  · subst h4; exact absurd h (by decide)
  by_cases h5 : c = 'F'
  · subst h5; exact absurd h (by decide)
  by_cases h6 : c = 'G'
  · subst h6; exact absurd h (by decide)
  by_cases h7 : c = 'H'
  · subst h7; exact absurd h (by decide)
  by_cases h8 : c = 'I'
  · subst h8; exact absurd h (by decide)
  by_cases h9 : c = 'J'
  · subst h9; exact absurd h (by decide)
  by_cases h10 : c = 'K'
  · subst h10; exact absurd h (by decide)
  by_cases h11 : c = 'L'
  · subst h11; exact absurd h (by decide)
  by_cases h12 : c = 'M'
  · subst h12; exact absurd h (by decide)
  by_cases h13 : c = 'N'
  · subst h13; exact absurd h (by decide)
  by_cases h14 : c = 'O'
  · subst h14; exact absurd h (by decide)
  by_cases h15 : c = 'P'
  · subst h15; exact absurd h (by decide)
  by_cases h16 : c = 'Q'
  · subst h16; exact absurd h (by decide)
  by_cases h17 : c = 'R'
  · subst h17; exact absurd h (by decide)
  by_cases h18 : c = 'S'
  · subst h18; exact absurd h (by decide)
  by_cases h19 : c = 'T'
  · subst h19; exact absurd h (by decide)
  by_cases h20 : c = 'U'
  · subst h20; exact absurd h (by decide)
  by_cases h21 : c = 'V'
  · subst h21; exact absurd h (by decide)
  by_cases h22 : c = 'W'
  · subst h22; exact absurd h (by decide)
  by_cases h23 : c = 'X'
  · subst h23; exact absurd h (by decide)
  by_cases h24 : c = 'Y'
  · subst h24; exact absurd h (by decide)
  by_cases h25 : c = 'Z'
  · subst h25; exact absurd h (by decide)
  rw [lowerChar] at h
  rw [if_neg h0, if_neg h1, if_neg h2, if_neg h3, if_neg h4, if_neg h5, if_neg h6, if_neg h7, if_neg h8, if_neg h9, if_neg h10, if_neg h11, if_neg h12, if_neg h13, if_neg h14, if_neg h15, if_neg h16, if_neg h17, if_neg h18, if_neg h19, if_neg h20, if_neg h21, if_neg h22, if_neg h23, if_neg h24, if_neg h25] at h
  exact h

theorem dropWhile_eq_self_of_head (l : Str)
    (h : ∀ c, l.head? = some c → isSpaceChar c = false) :
    l.dropWhile isSpaceChar = l := by
  cases l with
  | nil => rfl
  | cons c cs =>
    rw [List.dropWhile_cons, h c rfl]
    simp

theorem head?_dropWhile (p : Char → Bool) (l : Str) (c : Char)
    (h : (l.dropWhile p).head? = some c) : p c = false := by
  induction l with
  | nil => simp [List.dropWhile] at h
  | cons d ds ih =>
    rw [List.dropWhile_cons] at h
    by_cases hd : p d
    · simp only [hd, if_pos] at h
      exact ih h
    · simp only [hd] at h
      simp only [Bool.false_eq_true, if_neg, not_false_iff, List.head?_cons,
        Option.some.injEq] at h
      rw [← h]
      exact Bool.eq_false_iff.mpr hd

theorem getLast?_suffix_of_ne_nil (v w : Str) (hs : List.IsSuffix v w)
    (hv : v ≠ []) : v.getLast? = w.getLast? := by
  obtain ⟨t, ht⟩ := hs
  rw [← ht, List.getLast?_append_of_ne_nil t hv]

theorem trimmed_pyStrip (s : Str) : TrimmedStr (pyStrip s) := by
  constructor
  · intro c hc
    rw [pyStrip, List.head?_reverse] at hc
    have hne : (((s.dropWhile isSpaceChar).reverse).dropWhile isSpaceChar) ≠ [] := by
      intro he
      rw [he] at hc
      exact Option.noConfusion hc
    have hsuf := getLast?_suffix_of_ne_nil _ _
      (List.dropWhile_suffix isSpaceChar) hne
    rw [hsuf, List.getLast?_reverse] at hc
    exact head?_dropWhile isSpaceChar s c hc
  · intro c hc
    rw [pyStrip, List.getLast?_reverse] at hc
    exact head?_dropWhile isSpaceChar _ c hc

theorem pyStrip_eq_self (s : Str) (h : TrimmedStr s) : pyStrip s = s := by
  rw [pyStrip, dropWhile_eq_self_of_head s h.1]
  have h2 : ∀ c, s.reverse.head? = some c → isSpaceChar c = false := by
    intro c hc
    rw [List.head?_reverse] at hc
    exact h.2 c hc
  rw [dropWhile_eq_self_of_head s.reverse h2, List.reverse_reverse]

theorem pyStrip_space_cons (r : Str) (h : TrimmedStr r) :
    pyStrip (' ' :: r) = r := by
  rw [pyStrip]
  have h1 : (' ' :: r).dropWhile isSpaceChar = r.dropWhile isSpaceChar := by
    rw [List.dropWhile_cons]
    norm_num [isSpaceChar]
  rw [h1, dropWhile_eq_self_of_head r h.1]
  have h2 : ∀ c, r.reverse.head? = some c → isSpaceChar c = false := by
    intro c hc
    rw [List.head?_reverse] at hc
    exact h.2 c hc
  rw [dropWhile_eq_self_of_head r.reverse h2, List.reverse_reverse]

theorem trimmed_lowerStr (s : Str) (h : TrimmedStr s) :
    TrimmedStr (lowerStr s) := by
  constructor
  · intro c hc
    rw [lowerStr, List.head?_map] at hc
    match hh : s.head? with
    | none => rw [hh] at hc; simp at hc
    | some d =>
      rw [hh, Option.map_some'] at hc
      have hc2 := Option.some.inj hc
      rw [← hc2, lowerChar_space]
      exact h.1 d hh
  · intro c hc
    rw [lowerStr, List.getLast?_map] at hc
    match hh : s.getLast? with
    | none => rw [hh] at hc; simp at hc
    | some d =>
      rw [hh, Option.map_some'] at hc
      have hc2 := Option.some.inj hc
      rw [← hc2, lowerChar_space]
      exact h.2 d hh

theorem mem_pyStrip (c : Char) (s : Str) (h : c ∈ pyStrip s) : c ∈ s := by
  rw [pyStrip, List.mem_reverse] at h
  have h2 := (List.dropWhile_sublist _).mem h
  rw [List.mem_reverse] at h2
  exact (List.dropWhile_sublist _).mem h2

theorem comma_not_mem_lowerStr (s : Str) (h : ',' ∉ s) : ',' ∉ lowerStr s := by
  intro hc
  rw [lowerStr, List.mem_map] at hc
  obtain ⟨d, hd, he⟩ := hc
  exact h (lowerChar_comma d he ▸ hd)

/-- Every tag committed by the cleaning loop of `save_tags` is non-empty,
trimmed, and - when no input tag contains a comma - comma-free. -/
theorem cleanTags_fold_mem (cfg : Config) (T : List Str) :
    ∀ acc : List Str × List Str,
      (∀ l ∈ acc.1, l ≠ [] ∧ TrimmedStr l ∧ ',' ∉ l) →
      (∀ t ∈ T, ',' ∉ t) →
      ∀ l ∈ (T.foldl (cleanStep cfg) acc).1, l ≠ [] ∧ TrimmedStr l ∧ ',' ∉ l := by
  induction T with
  | nil =>
    intro acc hacc _ l hl
    exact hacc l hl
  | cons t T ih =>
    intro acc hacc hT l hl
    have hstep : List.foldl (cleanStep cfg) acc (t :: T) =
        List.foldl (cleanStep cfg) (cleanStep cfg acc t) T := rfl
    rw [hstep] at hl
    refine ih (cleanStep cfg acc t) ?_ (fun u hu => hT u (List.mem_cons_of_mem t hu)) l hl
    intro u hu
    unfold cleanStep at hu
    by_cases hg : pyStrip t ≠ [] ∧ pyStrip t ∉ acc.2
    · rw [if_pos hg] at hu
      simp only [List.mem_append, List.mem_singleton] at hu
      rcases hu with hu | hu
      · exact hacc u hu
      · subst hu
        have hms : ',' ∉ pyStrip t :=
          fun hm => hT t (List.mem_cons_self t T) (mem_pyStrip ',' t hm)
        by_cases hf : cfg.ENFORCE_LOWERCASE

        · refine ⟨?_, ?_, ?_⟩ <;> rw [if_pos hf]
          · intro he
            exact hg.1 (by simpa [lowerStr] using he)
          · exact trimmed_lowerStr _ (trimmed_pyStrip t)
          · exact comma_not_mem_lowerStr _ hms
        · refine ⟨?_, ?_, ?_⟩ <;> rw [if_neg hf]
          · exact hg.1
          · exact trimmed_pyStrip t
          · exact hms
    · rw [if_neg hg] at hu
      exact hacc u hu

theorem splitOnChar_ne_nil (sep : Char) (l : Str) : splitOnChar sep l ≠ [] := by
  cases l with
  | nil => simp [splitOnChar]
  | cons c cs =>
    by_cases hc : c = sep
    · simp [splitOnChar, hc]
    · simp only [splitOnChar, if_neg hc]
      match splitOnChar sep cs with
      | [] => simp
      | p :: ps => simp

theorem splitOnChar_no_sep (sep : Char) (l : Str) (h : sep ∉ l) :
    splitOnChar sep l = [l] := by
  induction l with
  | nil => rfl
  | cons c cs ih =>
    have hc : ¬ c = sep := fun he => h (he ▸ List.mem_cons_self c cs)
    have hcs : sep ∉ cs := fun hm => h (List.mem_cons_of_mem c hm)
    simp only [splitOnChar, if_neg hc, ih hcs]

theorem splitOnChar_append_no_sep (sep : Char) (t : Str) (h : sep ∉ t) :
    ∀ s p ps, splitOnChar sep s = p :: ps →
      splitOnChar sep (t ++ s) = (t ++ p) :: ps := by
  induction t with
  | nil =>
    intro s p ps hs
    simpa using hs
  | cons c t ih =>
    intro s p ps hs
    have hc : ¬ c = sep := fun he => h (he ▸ List.mem_cons_self c t)
    have ht : sep ∉ t := fun hm => h (List.mem_cons_of_mem c hm)
    have hrec := ih ht s p ps hs
    show splitOnChar sep (c :: (t ++ s)) = (c :: (t ++ p)) :: ps
    unfold splitOnChar
    rw [if_neg hc, hrec]

theorem joinSep_ne_nil (sep : Str) (t : Str) (rest : List Str) (ht : t ≠ []) :
    joinSep sep (t :: rest) ≠ [] := by
  obtain ⟨c, t', rfl⟩ := List.exists_cons_of_ne_nil ht
  cases rest with
  | nil => simp [joinSep]
  | cons r rs => simp [joinSep]

theorem joinSep_head? (sep : Str) (t : Str) (rest : List Str) (ht : t ≠ []) :
    (joinSep sep (t :: rest)).head? = t.head? := by
  cases rest with
  | nil => rfl
  | cons r rs =>
    obtain ⟨c, t', rfl⟩ := List.exists_cons_of_ne_nil ht
    simp [joinSep]

theorem joinSep_getLast? (sep : Str) :
    ∀ rest t, t ≠ [] → (∀ l ∈ rest, l ≠ ([] : Str)) →
      ∃ u ∈ t :: rest, (joinSep sep (t :: rest)).getLast? = u.getLast? := by
  intro rest
  induction rest with
  | nil =>
    intro t ht _
    exact ⟨t, List.mem_cons_self t [], rfl⟩
  | cons r rs ih =>
    intro t ht hrest
    have hr : r ≠ [] := hrest r (List.mem_cons_self r rs)
    have hJ : joinSep sep (r :: rs) ≠ [] :=
      joinSep_ne_nil sep r rs hr
    obtain ⟨u, hu, he⟩ := ih r hr (fun l hl => hrest l (List.mem_cons_of_mem r hl))
    refine ⟨u, List.mem_cons_of_mem t hu, ?_⟩
    have h1 : joinSep sep (t :: r :: rs) = t ++ sep ++ joinSep sep (r :: rs) := rfl
    rw [h1, List.append_assoc,
      List.getLast?_append_of_ne_nil t (by simp [hJ]),
      List.getLast?_append_of_ne_nil sep hJ, he]

theorem splitComma_joinSep :
    ∀ rest t, ',' ∉ t → (∀ l ∈ rest, ',' ∉ l) →
      splitOnChar ',' (joinSep (strOf ", ") (t :: rest)) =
        t :: rest.map (fun r => ' ' :: r) := by
  intro rest
  induction rest with
  | nil =>
    intro t ht _
    simp [joinSep, splitOnChar_no_sep ',' t ht]
  | cons r rs ih =>
    intro t ht hrest
    have h1 : joinSep (strOf ", ") (t :: r :: rs) =
        t ++ (',' :: ' ' :: joinSep (strOf ", ") (r :: rs)) := by
      show t ++ strOf ", " ++ joinSep (strOf ", ") (r :: rs) = _
      rw [List.append_assoc]
      rfl
    have hIH := ih r (hrest r (List.mem_cons_self r rs))
      (fun l hl => hrest l (List.mem_cons_of_mem r hl))
    have h2 : splitOnChar ',' (',' :: ' ' :: joinSep (strOf ", ") (r :: rs)) =
        [] :: splitOnChar ',' (' ' :: joinSep (strOf ", ") (r :: rs)) := by
      simp [splitOnChar]
    have h3 : splitOnChar ',' (' ' :: joinSep (strOf ", ") (r :: rs)) =
        (' ' :: r) :: rs.map (fun x => ' ' :: x) := by
      unfold splitOnChar
      rw [if_neg (by decide : ¬ ' ' = ','), hIH]
    have h4 : splitOnChar ',' (',' :: ' ' :: joinSep (strOf ", ") (r :: rs)) =
        [] :: ((' ' :: r) :: rs.map (fun x => ' ' :: x)) := by
      rw [h2, h3]
    rw [h1, splitOnChar_append_no_sep ',' t ht _ _ _ h4, List.append_nil]
    rfl

/-- Round-trip of the serializer and parser for the default separator
`", "`, over any list of non-empty, trimmed, comma-free tags. -/
theorem parse_join_roundtrip (L : List Str)
    (hL : ∀ l ∈ L, l ≠ [] ∧ TrimmedStr l ∧ ',' ∉ l) :
    parseTags (joinSep (strOf ", ") L) = L := by
  cases L with
  | nil => rfl
  | cons t rest =>
    have ht := hL t (List.mem_cons_self t rest)
    have hcontent : TrimmedStr (joinSep (strOf ", ") (t :: rest)) := by
      constructor
      · intro c hc
        rw [joinSep_head? _ t rest ht.1] at hc
        exact ht.2.1.1 c hc
      · intro c hc
        obtain ⟨u, hu, he⟩ := joinSep_getLast? (strOf ", ") rest t ht.1
          (fun l hl => (hL l (List.mem_cons_of_mem t hl)).1)
        rw [he] at hc
        exact (hL u hu).2.1.2 c hc
    have hne : joinSep (strOf ", ") (t :: rest) ≠ [] :=
      joinSep_ne_nil _ t rest ht.1
    unfold parseTags
    rw [pyStrip_eq_self _ hcontent, if_neg hne,
      splitComma_joinSep rest t ht.2.2
        (fun l hl => (hL l (List.mem_cons_of_mem t hl)).2.2)]
    have hmap : (rest.map (fun r => ' ' :: r)).map pyStrip = rest := by
      rw [List.map_map]
      have : ∀ r ∈ rest, (pyStrip ∘ fun x => ' ' :: x) r = id r := by
        intro r hr
        exact pyStrip_space_cons r (hL r (List.mem_cons_of_mem t hr)).2.1
      rw [List.map_congr_left this, List.map_id]
    simp only [List.map_cons, hmap, pyStrip_eq_self t ht.2.1]
    rw [List.filter_eq_self.mpr ?_]
    intro a ha
    rcases List.mem_cons.mp ha with ha | ha
    · subst ha; simpa using ht.1
    · simpa using (hL a (List.mem_cons_of_mem t ha)).1

/-- C3 counterexample: the parser splits on a hard-coded comma, so the
round-trip fails both for a non-comma separator (serializing `["a", "b"]`
with separator `"|"` parses back as `["a|b"]`) and for a tag containing a
comma under the default separator (`["a,b"]` parses back as `["a", "b"]`). -/
theorem roundtrip_cex :
    parseTags (serializeTags cfgPipe (cleanTags cfgPipe [strOf "a", strOf "b"])) ≠
      cleanTags cfgPipe [strOf "a", strOf "b"] ∧
    parseTags (serializeTags defaultConfig (cleanTags defaultConfig [strOf "a,b"])) ≠
      cleanTags defaultConfig [strOf "a,b"] := by
  refine ⟨by decide, by decide⟩

/-- C3 (amended): for the default separator `", "` and tag sequences whose
tags contain no comma, parsing the serialized form of the committed
(cleaned) list is the identity, for every setting of the lowercase flag. -/
theorem roundtrip_default_sep (cfg : Config) (T : List Str)
    (hsep : cfg.TAG_SEPARATOR = strOf ", ")
    (hT : ∀ t ∈ T, ',' ∉ t) :
    parseTags (serializeTags cfg (cleanTags cfg T)) = cleanTags cfg T := by
  unfold serializeTags
  rw [hsep]
  refine parse_join_roundtrip _ ?_
  exact cleanTags_fold_mem cfg T ([], []) (by simp) hT

theorem roundtrip_default_sep_witness :
    defaultConfig.TAG_SEPARATOR = strOf ", " ∧
    (∀ t ∈ tagsC3, ',' ∉ t) ∧
    parseTags (serializeTags defaultConfig (cleanTags defaultConfig tagsC3)) =
      cleanTags defaultConfig tagsC3 :=
  ⟨by decide, by decide,
    roundtrip_default_sep defaultConfig tagsC3 (by decide) (by decide)⟩

theorem lev_nil_left (ys : List Char) : lev [] ys = ys.length := by
  simp [lev]

theorem lev_cons_nil (x : Char) (xs : List Char) :
    lev (x :: xs) [] = xs.length + 1 := by
  simp [lev]

theorem lev_cons_cons (x y : Char) (xs ys : List Char) :
    lev (x :: xs) (y :: ys) =
      min (min (lev xs (y :: ys) + 1) (lev (x :: xs) ys + 1))
        (lev xs ys + (if x = y then 0 else 1)) := by
  rw [lev]

theorem lev_nil_right (xs : List Char) : lev xs [] = xs.length := by
  cases xs with
  | nil => rw [lev_nil_left]
  | cons x xs => rw [lev_cons_nil]; rfl

theorem lev_symm_aux (n : Nat) :
    ∀ xs ys : List Char, xs.length + ys.length ≤ n → lev xs ys = lev ys xs := by
  induction n with
  | zero =>
    intro xs ys h
    match xs, ys with
    | [], [] => rfl
    | x :: xs, _ => simp at h
    | [], y :: ys => simp at h
  | succ n ih =>
    intro xs ys h
    match xs, ys with
    | [], ys => rw [lev_nil_left, lev_nil_right]
    | x :: xs, [] => rw [lev_nil_right, lev_nil_left]
    | x :: xs, y :: ys =>
      simp only [List.length_cons] at h
      rw [lev_cons_cons, lev_cons_cons]
      rw [ih xs (y :: ys) (by simp; omega), ih (x :: xs) ys (by simp; omega),
        ih xs ys (by omega)]
      have hcost : (if x = y then 0 else 1) = (if y = x then 0 else 1) := by
        by_cases hxy : x = y
        · rw [if_pos hxy, if_pos hxy.symm]
        · rw [if_neg hxy, if_neg (fun he => hxy he.symm)]
      rw [hcost]
      omega

theorem lev_symm (xs ys : List Char) : lev xs ys = lev ys xs :=
  lev_symm_aux (xs.length + ys.length) xs ys (Nat.le_refl _)

theorem lev_zero_aux (n : Nat) :
    ∀ xs ys : List Char, xs.length + ys.length ≤ n →
      (lev xs ys = 0 ↔ xs = ys) := by
  induction n with
  | zero =>
    intro xs ys h
    match xs, ys with
    | [], [] => simp [lev_nil_left]
    | x :: xs, _ => simp at h
    | [], y :: ys => simp at h
  | succ n ih =>
    intro xs ys h
    match xs, ys with
    | [], ys =>
      rw [lev_nil_left]
      constructor
      · intro h0
        exact (List.length_eq_zero.mp h0).symm
      · intro h0
        rw [← h0]
        rfl
    | x :: xs, [] =>
      rw [lev_nil_right]
      simp
    | x :: xs, y :: ys =>
      simp only [List.length_cons] at h
      rw [lev_cons_cons]
      have hiff := ih xs ys (by omega)
      constructor
      · intro h0
        by_cases hxy : x = y
        · rw [if_pos hxy] at h0
          have hC : lev xs ys = 0 := by omega
          rw [hxy, hiff.mp hC]
        · rw [if_neg hxy] at h0
          omega
      · intro h0
        have hx : x = y := (List.cons.injEq x xs y ys ▸ h0).1
        have hxs : xs = ys := (List.cons.injEq x xs y ys ▸ h0).2
        rw [if_pos hx, hiff.mpr hxs]
        omega

theorem lev_zero_iff (xs ys : List Char) : lev xs ys = 0 ↔ xs = ys :=
  lev_zero_aux (xs.length + ys.length) xs ys (Nat.le_refl _)

theorem rowFrom_cons_shape (a b : List Char) (cs : List Char) :
    rowFrom a b cs = lev a b :: (rowFrom a b cs).tail := by
  cases cs <;> rfl

theorem levInner_rowFrom (c1 : Char) :
    ∀ cs b a : List Char,
      levInner c1 cs (rowFrom a b cs) (lev (c1 :: a) b) =
        (rowFrom (c1 :: a) b cs).tail := by
  intro cs
  induction cs with
  | nil => intro b a; rfl
  | cons c2 cs ih =>
    intro b a
    have h1 : rowFrom a b (c2 :: cs) =
        lev a b :: lev a (c2 :: b) :: (rowFrom a (c2 :: b) cs).tail := by
      rw [rowFrom, ← rowFrom_cons_shape]
    rw [h1]
    show (min (min (lev a (c2 :: b) + 1) (lev (c1 :: a) b + 1))
        (lev a b + (if c1 = c2 then 0 else 1))) ::
      levInner c1 cs ((lev a (c2 :: b)) :: (rowFrom a (c2 :: b) cs).tail)
        (min (min (lev a (c2 :: b) + 1) (lev (c1 :: a) b + 1))
          (lev a b + (if c1 = c2 then 0 else 1))) =
      (rowFrom (c1 :: a) b (c2 :: cs)).tail
    rw [← lev_cons_cons, ← rowFrom_cons_shape, ih (c2 :: b) a]
    show lev (c1 :: a) (c2 :: b) :: (rowFrom (c1 :: a) (c2 :: b) cs).tail =
      (rowFrom (c1 :: a) b (c2 :: cs)).tail
    rw [← rowFrom_cons_shape]
    rfl

theorem levOuter_rowFrom (s2 : List Char) :
    ∀ rest a : List Char,
      levOuter s2 rest (rowFrom a [] s2) a.length =
        rowFrom (rest.reverse ++ a) [] s2 := by
  intro rest
  induction rest with
  | nil => intro a; simp [levOuter]
  | cons c1 rest ih =>
    intro a
    show levOuter s2 rest
      ((a.length + 1) :: levInner c1 s2 (rowFrom a [] s2) (a.length + 1))
      (a.length + 1) = _
    have hlast : a.length + 1 = lev (c1 :: a) [] := (lev_cons_nil c1 a).symm
    rw [hlast, levInner_rowFrom c1 s2 [] a, ← rowFrom_cons_shape]
    have hlen : lev (c1 :: a) [] = (c1 :: a).length := lev_nil_right (c1 :: a)
    rw [hlen, ih (c1 :: a)]
    have : rest.reverse ++ (c1 :: a) = (c1 :: rest).reverse ++ a := by
      simp
    rw [this]

theorem rowFrom_nil_left :
    ∀ cs b : List Char,
      rowFrom [] b cs = (List.range (cs.length + 1)).map (fun j => j + b.length) := by
  intro cs
  induction cs with
  | nil => intro b; simp [rowFrom, lev_nil_left, List.range_succ]
  | cons c cs ih =>
    intro b
    have hr : List.map (fun j => j + b.length) (List.range ((cs.length + 1) + 1)) =
        b.length :: List.map (fun j => j + (c :: b).length)
          (List.range (cs.length + 1)) := by
      rw [List.range_succ_eq_map, List.map_cons, List.map_map, Nat.zero_add]
      refine congrArg₂ List.cons rfl ?_
      refine List.map_congr_left ?_
      intro j hj
      simp only [Function.comp_apply, List.length_cons]
      omega
    have h1 : (c :: cs).length + 1 = (cs.length + 1) + 1 := rfl
    rw [rowFrom, ih (c :: b), lev_nil_left, h1, hr]

theorem rowFrom_getLastD (a : List Char) :
    ∀ cs b : List Char, ∀ d : Nat,
      (rowFrom a b cs).getLastD d = lev a (cs.reverse ++ b) := by
  intro cs
  induction cs with
  | nil => intro b d; rfl
  | cons c cs ih =>
    intro b d
    rw [rowFrom, List.getLastD_cons, ih (c :: b) (lev a b)]
    have : (c :: cs).reverse ++ b = cs.reverse ++ (c :: b) := by
      simp
    rw [this]

theorem levAux_eq (s1 s2 : List Char) :
    levAux s1 s2 = lev s1.reverse s2.reverse := by
  unfold levAux
  by_cases h : s2.length = 0
  · rw [if_pos h, List.length_eq_zero.mp h]
    show s1.length = lev s1.reverse []
    rw [lev_nil_right, List.length_reverse]
  · rw [if_neg h]
    have h0 : List.range (s2.length + 1) = rowFrom [] [] s2 := by
      rw [rowFrom_nil_left s2 []]
      simp
    rw [h0]
    have h1 : levOuter s2 s1 (rowFrom [] [] s2) 0 =
        rowFrom (s1.reverse ++ []) [] s2 := levOuter_rowFrom s2 s1 []
    rw [List.append_nil] at h1
    rw [h1, rowFrom_getLastD s1.reverse s2 [] 0, List.append_nil]

theorem levenshtein_distance_eq (s1 s2 : List Char) :
    levenshtein_distance s1 s2 = lev s1.reverse s2.reverse := by
  unfold levenshtein_distance
  by_cases h : s1.length < s2.length
  · rw [if_pos h, levAux_eq, lev_symm]
  · rw [if_neg h, levAux_eq]

/-- C5: `_levenshtein_distance` implements the classic unit-cost Levenshtein
distance: it is symmetric, it is zero exactly on equal strings, and
`distance("color", "colour") = 1`. -/
theorem levenshtein_props :
    (∀ a b : Str, levenshtein_distance a b = levenshtein_distance b a ∧
      (levenshtein_distance a b = 0 ↔ a = b)) ∧
    levenshtein_distance (strOf "color") (strOf "colour") = 1 := by
  constructor
  · intro a b
    constructor
    · rw [levenshtein_distance_eq, levenshtein_distance_eq, lev_symm]
    · rw [levenshtein_distance_eq, lev_zero_iff, List.reverse_inj]
  · decide

theorem two_le_splitOnChar (sep : Char) (l : Str) (h : sep ∈ l) :
    2 ≤ (splitOnChar sep l).length := by
  induction l with
  | nil => simp at h
  | cons c cs ih =>
    by_cases hc : c = sep
    · have h1 : 1 ≤ (splitOnChar sep cs).length :=
        List.length_pos.mpr (splitOnChar_ne_nil sep cs)
      simp only [splitOnChar, if_pos hc, List.length_cons]
      omega
    · have hcs : sep ∈ cs := by
        rcases List.mem_cons.mp h with h1 | h1
        · exact absurd h1.symm hc
        · exact h1
      have h2 := ih hcs
      cases hr : splitOnChar sep cs with
      | nil => exact absurd hr (splitOnChar_ne_nil sep cs)
      | cons p ps =>
        rw [hr] at h2
        simp only [splitOnChar, if_neg hc, hr, List.length_cons] at *
        omega

theorem head_splitOnChar (sep : Char) (l : Str) (hne : l ≠ []) :
    ((splitOnChar sep l).head? = some []) ↔ l.head? = some sep := by
  obtain ⟨c, cs, rfl⟩ := List.exists_cons_of_ne_nil hne
  by_cases hc : c = sep
  · subst hc
    simp [splitOnChar]
  · cases hr : splitOnChar sep cs with
    | nil => exact absurd hr (splitOnChar_ne_nil sep cs)
    | cons p ps =>
      simp [splitOnChar, if_neg hc, hr, hc]

theorem splitOnChar_ne_singleton_nil (sep : Char) (cs : Str) (h : cs ≠ []) :
    splitOnChar sep cs ≠ [[]] := by
  obtain ⟨c, cs', rfl⟩ := List.exists_cons_of_ne_nil h
  by_cases hc : c = sep
  · simp only [splitOnChar, if_pos hc]
    intro he
    exact splitOnChar_ne_nil sep cs' (List.cons.inj he).2
  · cases hr : splitOnChar sep cs' with
    | nil => exact absurd hr (splitOnChar_ne_nil sep cs')
    | cons p ps =>
      simp only [splitOnChar, if_neg hc, hr]
      intro he
      exact List.cons_ne_nil c p (List.cons.inj he).1

theorem last_splitOnChar (sep : Char) :
    ∀ l : Str, l ≠ [] →
      (((splitOnChar sep l).getLast? = some []) ↔ l.getLast? = some sep) := by
  intro l
  induction l with
  | nil => intro h; exact absurd rfl h
  | cons c cs ih =>
    intro _
    by_cases hcs : cs = []
    · subst hcs
      by_cases hc : c = sep
      · subst hc
        simp [splitOnChar]
      · simp [splitOnChar, if_neg hc, hc]
    · have hlast : (c :: cs).getLast? = cs.getLast? := by
        obtain ⟨d, ds, rfl⟩ := List.exists_cons_of_ne_nil hcs
        exact List.getLast?_cons_cons
      by_cases hc : c = sep
      · subst hc
        cases hr : splitOnChar c cs with
        | nil => exact absurd hr (splitOnChar_ne_nil c cs)
        | cons p ps =>
          have h1 : splitOnChar c (c :: cs) = [] :: p :: ps := by
            simp [splitOnChar, hr]
          rw [h1, List.getLast?_cons_cons, hlast, ← hr]
          exact ih hcs
      · cases hr : splitOnChar sep cs with
        | nil => exact absurd hr (splitOnChar_ne_nil sep cs)
        | cons p ps =>
          have h1 : splitOnChar sep (c :: cs) = (c :: p) :: ps := by
            simp only [splitOnChar, if_neg hc, hr]
          rw [h1, hlast]
          cases ps with
          | nil =>
            have hp : p ≠ [] := by
              intro hpe
              rw [hpe] at hr
              exact splitOnChar_ne_singleton_nil sep cs hcs hr
            have hiff := ih hcs
            rw [hr] at hiff
            constructor
            · intro hcon
              simp at hcon
            · intro hcon
              have := hiff.mpr hcon
              simp at this
              exact absurd this hp
          | cons q qs =>
            have hg : (p :: q :: qs).getLast? = (q :: qs).getLast? :=
              List.getLast?_cons_cons
            have hiff := ih hcs
            rw [hr, hg] at hiff
            rw [List.getLast?_cons_cons]
            exact hiff

theorem filter_dropLast_of_last_nil :
    ∀ l : List Str, l.getLast? = some [] →
      l.filter (fun p => p ≠ []) = l.dropLast.filter (fun p => p ≠ []) := by
  intro l
  induction l with
  | nil => intro h; exact absurd h (by simp)
  | cons x t ih =>
    intro h
    cases t with
    | nil =>
      have hx : x = [] := by simpa using h
      subst hx
      simp
    | cons y t2 =>
      have hl : (y :: t2).getLast? = some [] := by
        rwa [List.getLast?_cons_cons] at h
      have ih2 := ih hl
      show (x :: y :: t2).filter _ = (x :: (y :: t2).dropLast).filter _
      by_cases hx : x = []
      · subst hx
        simp only [List.filter_cons, ih2]
      · simp only [List.filter_cons, ih2]

theorem getLast_nil_of_filter_nil (l : List Str) (hne : l ≠ [])
    (hf : l.filter (fun p => p ≠ []) = []) : l.getLast? = some [] := by
  have hall := List.filter_eq_nil_iff.mp hf
  have hmem := List.getLast_mem hne
  have h2 := hall _ hmem
  simp at h2
  rw [List.getLast?_eq_getLast l hne, h2]

theorem tail_getLast?_of_two_le (l : List Str) (h2 : 2 ≤ l.length) :
    l.tail.getLast? = l.getLast? := by
  match l, h2 with
  | a :: b :: t, _ =>
    show (b :: t).getLast? = (a :: b :: t).getLast?
    exact List.getLast?_cons_cons.symm

theorem head?_dropLast_ne_nil (l : List Str) (h : l.dropLast ≠ []) :
    l.dropLast.head? = l.head? := by
  cases l with
  | nil => simp at h
  | cons x t =>
    cases t with
    | nil => simp at h
    | cons y t2 => rfl

theorem matchLoop_eq_scanOk (tl : Str) (sw ew : Bool) :
    ∀ (parts : List Str) (i cur : Nat), sw = true ∨ i ≠ 0 →
      matchLoop tl sw ew parts i cur =
        scanOk tl ew (parts.filter (fun p => p ≠ [])) cur := by
  intro parts
  induction parts with
  | nil =>
    intro i cur _
    rfl
  | cons part rest ih =>
    intro i cur hyp
    by_cases hp : part = []
    · subst hp
      have h1 : matchLoop tl sw ew ([] :: rest) i cur =
          matchLoop tl sw ew rest (i + 1) cur := by
        simp [matchLoop]
      rw [h1, ih (i + 1) cur (Or.inr (Nat.succ_ne_zero i))]
      simp [List.filter_cons]
    · have h1 : matchLoop tl sw ew (part :: rest) i cur =
          (match pyFind tl part cur with
           | none => false
           | some pos =>
             if i = 0 ∧ sw = false ∧ pos ≠ 0 then false
             else matchLoop tl sw ew rest (i + 1) (pos + part.length)) := by
        simp [matchLoop, hp]
      have h2 : (part :: rest).filter (fun p => p ≠ []) =
          part :: rest.filter (fun p => p ≠ []) := by
        simp [List.filter_cons, hp]
      rw [h1, h2]
      cases hpf : pyFind tl part cur with
      | none => simp [scanOk, segScan, hpf]
      | some pos =>
        have hcond : ¬ (i = 0 ∧ sw = false ∧ pos ≠ 0) := by
          rcases hyp with hyp | hyp
          · rintro ⟨_, hsw2, _⟩
            rw [hyp] at hsw2
            exact Bool.noConfusion hsw2
          · rintro ⟨hi, _, _⟩
            exact hyp hi
        have h3 : scanOk tl ew (part :: rest.filter (fun p => p ≠ [])) cur =
            scanOk tl ew (rest.filter (fun p => p ≠ [])) (pos + part.length) := by
          simp [scanOk, segScan, hpf]
        rw [h3, ← ih (i + 1) (pos + part.length) (Or.inr (Nat.succ_ne_zero i))]
        simp only [hpf, if_neg hcond]

theorem star_core (tl : Str) (parts0 parts1 parts2 : List Str) (sw ew : Bool)
    (hsw : sw = decide (parts0.head? = some []))
    (hp1 : parts1 = if sw = true then parts0.tail else parts0)
    (hew : ew = decide (parts1.getLast? = some []))
    (hp2 : parts2 = if ew = true then parts1.dropLast else parts1) :
    (if parts2 = [] then true else matchLoop tl sw ew parts2 0 0) =
      scanStar tl sw ew (parts0.filter (fun p => p ≠ [])) := by
  have hfilter1 : parts1.filter (fun p => p ≠ []) = parts0.filter (fun p => p ≠ []) := by
    by_cases hh : parts0.head? = some []
    · have hswt : sw = true := by rw [hsw]; exact decide_eq_true hh
      rw [hp1, if_pos hswt]
      cases parts0 with
      | nil => simp at hh
      | cons p t =>
        have hpnil : p = [] := by simpa using hh
        subst hpnil
        simp [List.filter_cons]
    · have hswf : sw = false := by
        rw [hsw]
        simpa using hh
      rw [hp1, if_neg (by simp [hswf])]
  have hfilter2 : parts2.filter (fun p => p ≠ []) = parts1.filter (fun p => p ≠ []) := by
    by_cases hl : parts1.getLast? = some []
    · have hewt : ew = true := by rw [hew]; exact decide_eq_true hl
      rw [hp2, if_pos hewt]
      exact (filter_dropLast_of_last_nil parts1 hl).symm
    · have hewf : ew = false := by
        rw [hew]
        simpa using hl
      rw [hp2, if_neg (by simp [hewf])]
  by_cases hp2nil : parts2 = []
  · rw [if_pos hp2nil]
    have hsegs : parts0.filter (fun p => p ≠ []) = [] := by
      rw [← hfilter1, ← hfilter2, hp2nil]
      rfl
    rw [hsegs]
    rfl
  · rw [if_neg hp2nil]
    have hsegs : parts0.filter (fun p => p ≠ []) = parts2.filter (fun p => p ≠ []) := by
      rw [hfilter2, hfilter1]
    rw [hsegs]
    have hewt_of_nilsegs : parts2.filter (fun p => p ≠ []) = [] → ew = true := by
      intro hfnil
      by_cases hewb : ew = true
      · exact hewb
      · have hewf : ew = false := by revert hewb; cases ew <;> simp
        have hp21 : parts2 = parts1 := by rw [hp2, if_neg (by simp [hewf])]
        have hl : parts1.getLast? = some [] := by
          rw [← hp21]
          exact getLast_nil_of_filter_nil parts2 hp2nil hfnil
        have : ew = true := by rw [hew]; exact decide_eq_true hl
        rw [this] at hewf
        exact Bool.noConfusion hewf
    by_cases hswb : sw = true
    · rw [matchLoop_eq_scanOk tl sw ew parts2 0 0 (Or.inl hswb)]
      cases hf : parts2.filter (fun p => p ≠ []) with
      | nil =>
        have hewt := hewt_of_nilsegs hf
        rw [hewt]
        simp [scanOk, scanStar, segScan]
      | cons s0 rest =>
        cases hpf : pyFind tl s0 0 with
        | none => simp [scanOk, scanStar, segScan, hpf]
        | some p0 =>
          simp [scanOk, scanStar, segScan, hpf, hswb]
    · have hswf : sw = false := by revert hswb; cases sw <;> simp
      have hh : ¬ parts0.head? = some [] := by
        intro hcon
        have hc2 : sw = true := by rw [hsw]; exact decide_eq_true hcon
        rw [hc2] at hswf
        exact Bool.noConfusion hswf
      have hp11 : parts1 = parts0 := by
        rw [hp1, if_neg (by simp [hswf])]
      have hhead : parts2.head? = parts0.head? := by
        by_cases hewb : ew = true
        · have hd : parts2 = parts0.dropLast := by
            rw [hp2, if_pos hewb, hp11]
          rw [hd]
          refine head?_dropLast_ne_nil parts0 ?_
          rw [← hd]
          exact hp2nil
        · have hewf : ew = false := by revert hewb; cases ew <;> simp
          rw [hp2, if_neg (by simp [hewf]), hp11]
      cases hp2c : parts2 with
      | nil => exact absurd hp2c hp2nil
      | cons s0 rest2 =>
        rw [hp2c] at hhead
        have hs0 : s0 ≠ [] := by
          intro hse
          rw [hse] at hhead
          exact hh hhead.symm
        have h1 : matchLoop tl sw ew (s0 :: rest2) 0 0 =
            (match pyFind tl s0 0 with
             | none => false
             | some pos =>
               if 0 = 0 ∧ sw = false ∧ pos ≠ 0 then false
               else matchLoop tl sw ew rest2 1 (pos + s0.length)) := by
          simp [matchLoop, hs0]
        have hfc : (s0 :: rest2).filter (fun p => p ≠ []) =
            s0 :: rest2.filter (fun p => p ≠ []) := by
          simp [List.filter_cons, hs0]
        rw [h1, hfc]
        cases hpf : pyFind tl s0 0 with
        | none => simp [scanStar, hpf]
        | some p0 =>
          by_cases hp0 : p0 = 0
          · simp only [hpf]
            rw [if_neg (by simp [hp0])]
            rw [matchLoop_eq_scanOk tl sw ew rest2 1 (p0 + s0.length)
              (Or.inr Nat.one_ne_zero)]
            simp [scanStar, scanOk, segScan, hpf, hp0]
          · simp only [hpf]
            rw [if_pos (by simp [hswf, hp0])]
            simp [scanStar, hpf, hswf, hp0]

theorem starMatch_eq_scanStar (tl : Str) (parts0 : List Str) :
    starMatch tl parts0 =
      scanStar tl (decide (parts0.head? = some []))
        (decide ((if decide (parts0.head? = some []) = true then parts0.tail
                  else parts0).getLast? = some []))
        (parts0.filter (fun p => p ≠ [])) := by
  unfold starMatch
  exact star_core tl parts0 _ _ _ _ rfl rfl rfl rfl

/-- The wildcard matcher agrees with the spec's section 4.6 semantics on
every tag and pattern. -/
theorem match_pattern_eq_spec (tag pattern : Str) :
    matchPattern tag pattern = matchSpec tag pattern := by
  unfold matchPattern matchSpec
  by_cases hstar : '*' ∈ lowerStr pattern
  · rw [if_pos hstar, if_pos hstar]
    have hplne : lowerStr pattern ≠ [] := by
      intro he
      rw [he] at hstar
      exact List.not_mem_nil '*' hstar
    have h2 : 2 ≤ (splitOnChar '*' (lowerStr pattern)).length :=
      two_le_splitOnChar '*' (lowerStr pattern) hstar
    rw [starMatch_eq_scanStar]
    have hswe : decide ((splitOnChar '*' (lowerStr pattern)).head? = some []) =
        decide ((lowerStr pattern).head? = some '*') := by
      rw [decide_eq_decide]
      exact head_splitOnChar '*' (lowerStr pattern) hplne
    have hewe : decide ((if decide ((splitOnChar '*' (lowerStr pattern)).head? =
            some []) = true
          then (splitOnChar '*' (lowerStr pattern)).tail
          else splitOnChar '*' (lowerStr pattern)).getLast? = some []) =
        decide ((lowerStr pattern).getLast? = some '*') := by
      rw [decide_eq_decide]
      by_cases hh : (splitOnChar '*' (lowerStr pattern)).head? = some []
      · rw [if_pos (decide_eq_true hh),
          tail_getLast?_of_two_le (splitOnChar '*' (lowerStr pattern)) h2]
        exact last_splitOnChar '*' (lowerStr pattern) hplne
      · rw [if_neg (by simpa using hh)]
        exact last_splitOnChar '*' (lowerStr pattern) hplne
    rw [hewe, hswe]
  · rw [if_neg hstar, if_neg hstar]

/-- C6: `_match_pattern` implements the spec's case-insensitive glob
semantics for every tag and pattern (no `*` means case-insensitive
equality; literal segments occur in order, non-overlapping, each found
leftmost at or after the cursor; no leading `*` anchors the first segment
at position 0; no trailing `*` requires the last segment to end exactly at
the end of the tag; an only-`*` pattern matches everything); in particular
`match(tag, "*")` holds for every tag, `match("blonde_hair", "hair*")` is
false, `match("hair_color", "hair*")` is true, and
`match("blonde_hair", "*hair*")` is true. -/
theorem wildcard_matcher_spec :
    (∀ tag pattern : Str, matchPattern tag pattern = matchSpec tag pattern) ∧
    (∀ tag : Str, matchPattern tag (strOf "*") = true) ∧
    matchPattern (strOf "blonde_hair") (strOf "hair*") = false ∧
    matchPattern (strOf "hair_color") (strOf "hair*") = true ∧
    matchPattern (strOf "blonde_hair") (strOf "*hair*") = true := by
  refine ⟨match_pattern_eq_spec, ?_, by decide, by decide, by decide⟩
  intro tag
  rfl

theorem keywordIndex_lt_length (kws : List Str) (t : Str) (i : Nat)
    (h : keywordIndex kws t = some i) : i < kws.length := by
  induction kws generalizing i with
  | nil => simp [keywordIndex] at h
  | cons k rest ih =>
    by_cases hm : matchPattern t k = true
    · simp only [keywordIndex, if_pos hm] at h
      have : i = 0 := (Option.some.inj h).symm
      subst this
      simp
    · simp only [keywordIndex, if_neg hm] at h
      rcases Option.map_eq_some'.mp h with ⟨j, hj, hij⟩
      have := ih j hj
      simp only [List.length_cons]
      omega

theorem categorizeTag_none_iff (t : Str) :
    ∀ cats : List Category,
      (categorizeTag cats t = none ↔ tagMatches cats t = false) := by
  intro cats
  induction cats with
  | nil =>
    constructor
    · intro _; rfl
    · intro _; rfl
  | cons cat rest ih =>
    have htm : tagMatches (cat :: rest) t =
        ((keywordIndex cat.auto_keywords t).isSome || tagMatches rest t) := rfl
    cases hki : keywordIndex cat.auto_keywords t with
    | some idx =>
      constructor
      · intro h
        simp only [categorizeTag, hki] at h
        exact Option.noConfusion h
      · intro h
        rw [htm, hki] at h
        simp at h
    | none =>
      have hstep : categorizeTag (cat :: rest) t =
          (match categorizeTag rest t with
           | none => none
           | some rest2 => some (cat :: rest2)) := by
        simp [categorizeTag, hki]
      rw [hstep, htm, hki]
      simp only [Option.isSome_none, Bool.false_or]
      cases hrec : categorizeTag rest t with
      | none =>
        rw [hrec] at ih
        simpa using ih
      | some rest2 =>
        rw [hrec] at ih
        constructor
        · intro h
          exact Option.noConfusion h
        · intro h
          exact Option.noConfusion (ih.mpr h)

theorem categorizeTag_keywords (t : Str) :
    ∀ (cats cats2 : List Category), categorizeTag cats t = some cats2 →
      cats2.map (fun c => c.auto_keywords) = cats.map (fun c => c.auto_keywords) := by
  intro cats
  induction cats with
  | nil => intro cats2 h; simp [categorizeTag] at h
  | cons cat rest ih =>
    intro cats2 h
    cases hki : keywordIndex cat.auto_keywords t with
    | some idx =>
      simp only [categorizeTag, hki] at h
      rw [← Option.some.inj h]
      simp
    | none =>
      simp only [categorizeTag, hki] at h
      cases hrec : categorizeTag rest t with
      | none => rw [hrec] at h; exact Option.noConfusion h
      | some rest2 =>
        rw [hrec] at h
        rw [← Option.some.inj h]
        simp only [List.map_cons]
        rw [ih rest2 hrec]

theorem tagMatches_congr (cats cats2 : List Category)
    (h : cats2.map (fun c => c.auto_keywords) = cats.map (fun c => c.auto_keywords))
    (t : Str) : tagMatches cats2 t = tagMatches cats t := by
  unfold tagMatches
  have e0 : ∀ l : List Category,
      l.any (fun c => (keywordIndex c.auto_keywords t).isSome) =
        (l.map (fun c => c.auto_keywords)).any
          (fun kws => (keywordIndex kws t).isSome) := by
    intro l
    induction l with
    | nil => rfl
    | cons c l ih => simp [List.any_cons, ih]
  rw [e0 cats2, e0 cats, h]

theorem auto_fold_main (cats : List Category) :
    ∀ (keys : List Str) (n : Nat) (cats1 : List Category) (d : List (Str × Nat)),
      cats1.map (fun c => c.auto_keywords) = cats.map (fun c => c.auto_keywords) →
      (keys.foldl autoStep (n, cats1, d)).1 =
          n + (keys.filter (fun t => tagMatches cats t)).length ∧
      ((keys.foldl autoStep (n, cats1, d)).2.1).map (fun c => c.auto_keywords) =
          cats.map (fun c => c.auto_keywords) ∧
      (keys.foldl autoStep (n, cats1, d)).2.2 =
          d.filter (fun p =>
            decide (p.1 ∉ keys.filter (fun t => tagMatches cats t))) := by
  intro keys
  induction keys with
  | nil =>
    intro n cats1 d hkw
    refine ⟨by simp, by simpa using hkw, ?_⟩
    simp
  | cons t keys ih =>
    intro n cats1 d hkw
    have hstep : List.foldl autoStep (n, cats1, d) (t :: keys) =
        List.foldl autoStep (autoStep (n, cats1, d) t) keys := rfl
    rw [hstep]
    have hmt : tagMatches cats1 t = tagMatches cats t := tagMatches_congr cats cats1 hkw t
    cases hct : categorizeTag cats1 t with
    | none =>
      have hnm : tagMatches cats t = false := by
        rw [← hmt]
        exact (categorizeTag_none_iff t cats1).mp hct
      have hstep2 : autoStep (n, cats1, d) t = (n, cats1, d) := by
        simp [autoStep, hct]
      rw [hstep2]
      rcases ih n cats1 d hkw with ⟨h1, h2, h3⟩
      refine ⟨?_, h2, ?_⟩
      · rw [h1]
        simp [List.filter_cons, hnm]
      · rw [h3]
        simp [List.filter_cons, hnm]
    | some cats2 =>
      have hm : tagMatches cats t = true := by
        rw [← hmt]
        by_cases hb : tagMatches cats1 t = true
        · exact hb
        · have : tagMatches cats1 t = false := by revert hb; cases tagMatches cats1 t <;> simp
          have := (categorizeTag_none_iff t cats1).mpr this
          rw [hct] at this
          exact Option.noConfusion this
      have hkw2 : cats2.map (fun c => c.auto_keywords) =
          cats.map (fun c => c.auto_keywords) := by
        rw [categorizeTag_keywords t cats1 cats2 hct, hkw]
      have hstep2 : autoStep (n, cats1, d) t = (n + 1, cats2, removeKey d t) := by
        simp [autoStep, hct]
      rw [hstep2]
      rcases ih (n + 1) cats2 (removeKey d t) hkw2 with ⟨h1, h2, h3⟩
      refine ⟨?_, h2, ?_⟩
      · rw [h1]
        simp [List.filter_cons, hm]
        omega
      · rw [h3]
        unfold removeKey
        rw [List.filter_filter]
        refine List.filter_congr ?_
        intro p _
        simp only [List.filter_cons, hm, if_pos]
        by_cases hp1 : p.1 = t
        · simp [hp1]
        · simp [hp1, List.mem_cons]

theorem ltInf_eq_rank (kws : List Str) (u : Str) (n : Nat) (hn : n < kws.length) :
    ltInf n (keywordIndex kws u) = decide (n < kwRank kws u) := by
  cases hk : keywordIndex kws u with
  | none => simp [ltInf, kwRank, hk, hn]
  | some m => simp [ltInf, kwRank, hk]

theorem insertAt_mem (n : Nat) (x a : Str) (l : List Str)
    (h : a ∈ insertAt n x l) : a = x ∨ a ∈ l := by
  unfold insertAt at h
  rcases List.mem_append.mp h with h1 | h1
  · exact Or.inr ((List.take_sublist n l).mem h1)
  · rcases List.mem_cons.mp h1 with h2 | h2
    · exact Or.inl h2
    · exact Or.inr ((List.drop_sublist n l).mem h2)

theorem insertAt_findInsertPos_sorted (kws : List Str) (n : Nat) (x : Str)
    (hn : n < kws.length) (hx : kwRank kws x = n) :
    ∀ tags : List Str,
      tags.Pairwise (fun a b => kwRank kws a ≤ kwRank kws b) →
      (insertAt (findInsertPos kws n tags) x tags).Pairwise
        (fun a b => kwRank kws a ≤ kwRank kws b) := by
  intro tags
  induction tags with
  | nil =>
    intro _
    exact List.pairwise_singleton _ x
  | cons u us ih =>
    intro hp
    rcases List.pairwise_cons.mp hp with ⟨hu, hus⟩
    by_cases hc : ltInf n (keywordIndex kws u) = true
    · have hpos : findInsertPos kws n (u :: us) = 0 := by
        simp [findInsertPos, hc]
      rw [hpos]
      have hxu : insertAt 0 x (u :: us) = x :: u :: us := rfl
      rw [hxu]
      refine List.pairwise_cons.mpr ⟨?_, hp⟩
      intro b hb
      have hnu : n < kwRank kws u := by
        rw [ltInf_eq_rank kws u n hn] at hc
        exact of_decide_eq_true hc
      rcases List.mem_cons.mp hb with hb | hb
      · subst hb
        rw [hx]
        omega
      · have := hu b hb
        rw [hx]
        omega
    · have hcf : ltInf n (keywordIndex kws u) = false := by
        revert hc
        cases ltInf n (keywordIndex kws u) <;> simp
      have hpos : findInsertPos kws n (u :: us) = findInsertPos kws n us + 1 := by
        simp [findInsertPos, hcf]
      rw [hpos]
      have hins : insertAt (findInsertPos kws n us + 1) x (u :: us) =
          u :: insertAt (findInsertPos kws n us) x us := rfl
      rw [hins]
      refine List.pairwise_cons.mpr ⟨?_, ih hus⟩
      intro b hb
      have hun : kwRank kws u ≤ n := by
        rw [ltInf_eq_rank kws u n hn] at hcf
        have := of_decide_eq_false hcf
        omega
      rcases insertAt_mem _ x b us hb with hb | hb
      · subst hb
        rw [hx]
        exact hun
      · exact hu b hb

theorem categorizeTag_sorted (t : Str) :
    ∀ (cats cats2 : List Category), SortedCats cats →
      categorizeTag cats t = some cats2 → SortedCats cats2 := by
  intro cats
  induction cats with
  | nil => intro cats2 _ h; simp [categorizeTag] at h
  | cons cat rest ih =>
    intro cats2 hs h
    cases hki : keywordIndex cat.auto_keywords t with
    | some idx =>
      simp only [categorizeTag, hki] at h
      rw [← Option.some.inj h]
      intro c hc
      rcases List.mem_cons.mp hc with hc | hc
      · subst hc
        by_cases hmem : t ∈ cat.tags
        · simp only [if_pos hmem]
          exact hs cat (List.mem_cons_self cat rest)
        · simp only [if_neg hmem]
          exact insertAt_findInsertPos_sorted cat.auto_keywords idx t
            (keywordIndex_lt_length _ _ _ hki) (by simp [kwRank, hki]) cat.tags
            (hs cat (List.mem_cons_self cat rest))
      · exact hs c (List.mem_cons_of_mem cat hc)
    | none =>
      simp only [categorizeTag, hki] at h
      cases hrec : categorizeTag rest t with
      | none =>
        rw [hrec] at h
        exact Option.noConfusion h
      | some rest2 =>
        rw [hrec] at h
        have hrest : SortedCats rest := fun c hc => hs c (List.mem_cons_of_mem cat hc)
        have hr2 := ih rest2 hrest hrec
        rw [← Option.some.inj h]
        intro c hc
        rcases List.mem_cons.mp hc with hc | hc
        · rw [hc]
          exact hs cat (List.mem_cons_self cat rest)
        · exact hr2 c hc

theorem auto_fold_sorted :
    ∀ (keys : List Str) (n : Nat) (cats1 : List Category) (d : List (Str × Nat)),
      SortedCats cats1 → SortedCats ((keys.foldl autoStep (n, cats1, d)).2.1) := by
  intro keys
  induction keys with
  | nil => intro n cats1 d hs; exact hs
  | cons t keys ih =>
    intro n cats1 d hs
    have hstep : List.foldl autoStep (n, cats1, d) (t :: keys) =
        List.foldl autoStep (autoStep (n, cats1, d) t) keys := rfl
    rw [hstep]
    cases hct : categorizeTag cats1 t with
    | none =>
      have hstep2 : autoStep (n, cats1, d) t = (n, cats1, d) := by
        simp [autoStep, hct]
      rw [hstep2]
      exact ih n cats1 d hs
    | some cats2 =>
      have hstep2 : autoStep (n, cats1, d) t = (n + 1, cats2, removeKey d t) := by
        simp [autoStep, hct]
      rw [hstep2]
      exact ih (n + 1) cats2 (removeKey d t) (categorizeTag_sorted t cats1 cats2 hs hct)

/-- C7: `_auto_categorize` tries the categories in order and the keywords in
priority order for every snapshot-listed uncategorized tag; the number it
reports is the number of uncategorized tags matched by some category, those
tags (and only those) leave the uncategorized map, category tag lists
ordered by matched-keyword priority stay so ordered (the insertion position
ranks earlier-priority keywords earlier), and on the spec's example
(`Hair` with keywords `["*hair*"]` and tags `{red_hair: 1, eyes: 1}`) it
returns 1, moves `red_hair` into `Hair` and leaves `eyes` uncategorized;
with keywords `["*hair*", "*eyes*"]` and uncategorized `blue_eyes` then
`red_hair`, `red_hair` is inserted before `blue_eyes`. -/
theorem auto_categorize_correct :
    (∀ (cats : List Category) (uncat : List (Str × Nat)),
      (auto_categorize cats uncat).1 =
        ((uncat.map (fun p => p.1)).filter (fun t => tagMatches cats t)).length ∧
      (auto_categorize cats uncat).2.2 =
        uncat.filter (fun p => tagMatches cats p.1 = false) ∧
      (SortedCats cats → SortedCats (auto_categorize cats uncat).2.1)) ∧
    auto_categorize hairCats hairUncat =
      (1, [{ name := "Hair", auto_keywords := [strOf "*hair*"],
             tags := [strOf "red_hair"] }], [(strOf "eyes", 1)]) ∧
    auto_categorize hairEyesCats hairEyesUncat =
      (2, [{ name := "Hair", auto_keywords := [strOf "*hair*", strOf "*eyes*"],
             tags := [strOf "red_hair", strOf "blue_eyes"] }], []) := by
  refine ⟨?_, by decide, by decide⟩
  intro cats uncat
  rcases auto_fold_main cats (uncat.map (fun p => p.1)) 0 cats uncat rfl
    with ⟨h1, _, h3⟩
  refine ⟨by simpa using h1, ?_, ?_⟩
  · rw [show (auto_categorize cats uncat).2.2 =
      ((uncat.map (fun p => p.1)).foldl autoStep (0, cats, uncat)).2.2 from rfl, h3]
    refine List.filter_congr ?_
    intro p hp
    have hpmem : p.1 ∈ uncat.map (fun q => q.1) := List.mem_map_of_mem _ hp
    by_cases hm : tagMatches cats p.1 = true
    · simp [hm, List.mem_filter, hpmem]
    · have hmf : tagMatches cats p.1 = false := by
        revert hm
        cases tagMatches cats p.1 <;> simp
      simp [hmf, List.mem_filter]
  · intro hs
    exact auto_fold_sorted (uncat.map (fun p => p.1)) 0 cats uncat hs

theorem auto_categorize_correct_witness :
    SortedCats hairCats ∧ SortedCats (auto_categorize hairCats hairUncat).2.1 :=
  ⟨by decide, (auto_categorize_correct.1 hairCats hairUncat).2.2 (by decide)⟩

end Tagger
